import Mathlib

/-!
Verification of the core components of a PDF reader with word-lookup:

* `src/lib/dictionaryApi.ts` — word normalization, definition lookup and its
  session cache (`normalizeWord`, `fetchDefinition`);
* `src/lib/pdfTextExtractor.ts` — word-geometry extraction and hit testing
  (`extractWordsFromTextContent`, `findWordAtPoint`);
* the page render lifecycle controller (the `PdfViewer` component):
  `renderPage`, `handlePageChange`, the debounced resize handler, and
  `cleanup`/`cleanupDoc`, embedded as a small-step transition system over an
  explicit shared state, with one resume step per `await` point.

JavaScript strings are modelled as `List Char` (ASCII-faithful; the repository
only applies the ASCII class tests `[^a-z]`, `\w`, `\s` to them), numbers as
`ℚ`, and fallible or asynchronous operations as explicit outcome parameters.
-/

/-! ### JavaScript string primitives used by the source -/

/-- Lowercasing of one character as `String.prototype.toLowerCase` acts on the
ASCII range (the only range that survives the `[^a-z]` strip that follows every
use in the source). -/
def jsToLower (c : Char) : Char :=
  if 'A' ≤ c ∧ c ≤ 'Z' then Char.ofNat (c.toNat + 32) else c

/-- Membership in the JavaScript whitespace class `\s` (ASCII part), also the
class removed by `String.prototype.trim`. -/
def jsWhitespace (c : Char) : Bool :=
  c = ' ' ∨ c = '\t' ∨ c = '\n' ∨ c = '\r' ∨ c = '\x0B' ∨ c = '\x0C'

/-- `String.prototype.trim`: drop leading and trailing whitespace. -/
def jsTrim (l : List Char) : List Char :=
  ((l.dropWhile jsWhitespace).reverse.dropWhile jsWhitespace).reverse

/-- A lowercase Latin letter, the class `[a-z]`. -/
def isLowerAlpha (c : Char) : Bool :=
  'a' ≤ c ∧ c ≤ 'z'

/-! ### `normalizeWord` (src/lib/dictionaryApi.ts, lines 8–18) -/

/-- `normalizeWord`: `word.toLowerCase().trim().replace(/[^a-z]/g, '')`, then
reject (return `none`) when the result is shorter than 2 characters or fails
the defensive re-check `/^[a-z]+$/`. -/
def normalizeWord (word : String) : Option String :=
  let normalized := (jsTrim (word.toList.map jsToLower)).filter isLowerAlpha
  if normalized.length < 2 ∨ ¬(normalized ≠ [] ∧ normalized.all isLowerAlpha) then
    none
  else
    some (String.mk normalized)

/-! ### Data model of a definition entry (`DefinitionData` in the types module) -/

/-- `DefinitionData` from the repository's type declarations.  The TS field
`example` is spelled `exampleStr` here because `example` is a Lean keyword. -/
structure DefinitionData where
  word : String
  phonetic : Option String
  definition : String
  exampleStr : Option String
  error : Option String
deriving DecidableEq

/-! ### The dictionary API response, as consumed by `fetchDefinition` -/

/-- One definition object of the API response (`definitions[i]`). -/
structure ApiDef where
  definition : Option String
  exampleStr : Option String
deriving DecidableEq

/-- One phonetics object of the API response. -/
structure ApiPhonetic where
  text : Option String
deriving DecidableEq

/-- One meanings object of the API response. -/
structure ApiMeaning where
  definitions : List ApiDef
deriving DecidableEq

/-- One entry of the API response array. -/
structure ApiEntry where
  phonetic : Option String
  phonetics : List ApiPhonetic
  meanings : List ApiMeaning
deriving DecidableEq

/-- Outcome of the single `fetch` call of `fetchDefinition`, seen from the
code: a parsed JSON array on `response.ok`; HTTP 404; any other non-success
status; or a thrown error (transport failure, or `response.json()` rejecting),
carrying `err.message` when the thrown value is an `Error` and nothing
otherwise (the code then substitutes `'network_error'`). -/
inductive NetResponse
  | ok (entries : List ApiEntry)
  | notFound
  | badStatus (status : ℕ)
  | netFail (msg : Option String)
deriving DecidableEq

/-- JavaScript truthiness of an optional string (`undefined` and `''` are
falsy). -/
def jsStrTruthy : Option String → Bool
  | none => false
  | some s => !s.isEmpty

/-- `a || b` on optional strings under JavaScript truthiness. -/
def jsOrStr (a b : Option String) : Option String :=
  if jsStrTruthy a then a else b

/-- `x || undefined`: an empty or missing string becomes `none`. -/
def jsOrUndef (a : Option String) : Option String :=
  if jsStrTruthy a then a else none

/-- The success-path parse of `fetchDefinition`:
`firstEntry?.meanings?.[0]?.definitions?.[0]`, the phonetic fallback chain
`firstEntry?.phonetic || firstEntry?.phonetics?.find(p => p.text)?.text || ''`,
`firstDefinition?.example || undefined`, and
`firstDefinition?.definition || 'No definition available'`. -/
def parseApi (key : String) (entries : List ApiEntry) : DefinitionData :=
  let firstEntry := entries.head?
  let firstDefinition :=
    (firstEntry.bind (fun e => e.meanings.head?)).bind (fun m => m.definitions.head?)
  let phonetic :=
    jsOrStr (firstEntry.bind ApiEntry.phonetic)
      ((firstEntry.bind
          (fun e => e.phonetics.find? (fun p => jsStrTruthy p.text))).bind ApiPhonetic.text)
  { word := key
    phonetic := jsOrUndef phonetic
    definition := (jsOrStr (firstDefinition.bind ApiDef.definition)
      (some "No definition available")).getD "No definition available"
    exampleStr := jsOrUndef (firstDefinition.bind ApiDef.exampleStr)
    error := none }

/-- The entry synthesized and cached for an HTTP 404. -/
def notFoundEntry (key : String) : DefinitionData :=
  { word := key
    phonetic := none
    definition := "Meaning not available for '" ++ key ++ "'"
    exampleStr := none
    error := some "not_found" }

/-- The entry synthesized (and not cached) in the `catch` block, with
`error := err instanceof Error ? err.message : 'network_error'`. -/
def caughtEntry (key : String) (msg : Option String) : DefinitionData :=
  { word := key
    phonetic := none
    definition := "Unable to fetch meaning for '" ++ key ++ "'"
    exampleStr := none
    error := some (msg.getD "network_error") }

/-- `fetchDefinition` (src/lib/dictionaryApi.ts, lines 20–90).  The module-level
`cache` map is threaded explicitly as an association list (newest binding
first, as `Map.set` overwrites), the one network call is an explicit
`NetResponse` argument, and the returned triple is (promise outcome, cache
after the call, number of network calls issued: 0 or 1).  A rejected promise
(only the `'Invalid word format'` throw) is `Except.error`. -/
def fetchDefinition (word : String) (cache : List (String × DefinitionData))
    (resp : NetResponse) :
    Except String DefinitionData × List (String × DefinitionData) × ℕ :=
  match normalizeWord word with
  | none => (Except.error "Invalid word format", cache, 0)
  | some key =>
    match List.lookup key cache with
    | some d => (Except.ok d, cache, 0)
    | none =>
      match resp with
      | NetResponse.notFound =>
        (Except.ok (notFoundEntry key), (key, notFoundEntry key) :: cache, 1)
      | NetResponse.badStatus status =>
        (Except.ok (caughtEntry key (some ("HTTP error " ++ toString status))), cache, 1)
      | NetResponse.netFail msg =>
        (Except.ok (caughtEntry key msg), cache, 1)
      | NetResponse.ok entries =>
        (Except.ok (parseApi key entries), (key, parseApi key entries) :: cache, 1)

/-- Two consecutive lookups: the cache produced by the first feeds the second;
the last component counts the total network calls of the pair. -/
def fetchTwice (w1 w2 : String) (cache : List (String × DefinitionData))
    (r1 r2 : NetResponse) :
    Except String DefinitionData × List (String × DefinitionData) × ℕ :=
  let a := fetchDefinition w1 cache r1
  let b := fetchDefinition w2 a.2.1 r2
  (b.1, b.2.1, a.2.2 + b.2.2)

/-! ### Word rectangles and hit testing (src/lib/pdfTextExtractor.ts) -/

/-- `WordRect` from the repository's type declarations, coordinates in logical
(viewport) pixels. -/
structure WordRect where
  word : String
  x : ℚ
  y : ℚ
  width : ℚ
  height : ℚ
  centerX : ℚ
  centerY : ℚ
deriving DecidableEq

/-- The containment test of the first pass of `findWordAtPoint`: the
rectangle's bounds expanded by `threshold` on all four sides contain the
point. -/
def containsPt (w : WordRect) (x y threshold : ℚ) : Bool :=
  w.x - threshold ≤ x ∧ x ≤ w.x + w.width + threshold ∧
  w.y - threshold ≤ y ∧ y ≤ w.y + w.height + threshold

/-- Squared Euclidean distance from the query point to a rectangle's center
(`dx*dx + dy*dy` in the source, before `Math.sqrt`). -/
def distSq (w : WordRect) (x y : ℚ) : ℚ :=
  (x - w.centerX) * (x - w.centerX) + (y - w.centerY) * (y - w.centerY)

/-- One iteration of the nearest-center fold of `findWordAtPoint`.  The source
compares `Math.sqrt(distSq)` against the running minimum; since the square
root is strictly monotone on nonnegative reals, the comparisons are carried
out here on squares (the initial bound `threshold * 2` is squared), which
agrees with the source whenever `0 ≤ threshold` — in the repository the
threshold is always the nonnegative default 12. -/
def nearestStep (x y : ℚ) (acc : Option WordRect × ℚ) (w : WordRect) : Option WordRect × ℚ :=
  if distSq w x y < acc.2 then (some w, distSq w x y) else acc

/-- `findWordAtPoint` (src/lib/pdfTextExtractor.ts, lines 113–162): first
containment match in list order, else nearest center strictly closer than
`threshold * 2`, else `none`. -/
def findWordAtPoint (words : List WordRect) (x y threshold : ℚ) : Option WordRect :=
  match words.find? (fun w => containsPt w x y threshold) with
  | some w => some w
  | none => (words.foldl (nearestStep x y) (none, (threshold * 2) * (threshold * 2))).1

/-! ### Word geometry extraction (src/lib/pdfTextExtractor.ts, lines 5–111) -/

/-- One text run of `textContent.items`, keeping the transform components the
code reads: `transform[0]` (horizontal scale), `transform[3]` (vertical
scale), `transform[4]` (x translation), `transform[5]` (y translation), plus
the literal string and measured run width. -/
structure TextItem where
  str : String
  scaleX : ℚ
  scaleY : ℚ
  tx : ℚ
  ty : ℚ
  width : ℚ
deriving DecidableEq

/-- The page viewport dimensions. -/
structure Viewport where
  width : ℚ
  height : ℚ
deriving DecidableEq

/-- The JavaScript word-character class `\w` (no unicode flag):
`[A-Za-z0-9_]`. -/
def jsWordChar (c : Char) : Bool :=
  ('a' ≤ c ∧ c ≤ 'z') ∨ ('A' ≤ c ∧ c ≤ 'Z') ∨ ('0' ≤ c ∧ c ≤ '9') ∨ c = '_'

/-- A character kept by `word.replace(/[^\w'-]/g, '')`: word character,
apostrophe, or hyphen. -/
def keepChar (c : Char) : Bool :=
  jsWordChar c ∨ c = '\'' ∨ c = '-'

/-- Shift the positions of a position-annotated token list. -/
def shiftPairs (k : ℕ) (P : List (ℕ × List Char)) : List (ℕ × List Char) :=
  P.map (fun q => (q.1 + k, q.2))

/-- The maximal whitespace-free runs of a string together with their start
positions.  `item.str.split(/\s+/)` yields exactly these runs (plus a leading
empty string when the string starts with whitespace, which the subsequent
`filter(w => w.trim().length > 0)` removes). -/
def posSplit : List Char → List (ℕ × List Char)
  | [] => []
  | c :: s =>
    if jsWhitespace c then shiftPairs 1 (posSplit s)
    else
      match posSplit s with
      | (0, t) :: rest => (0, c :: t) :: shiftPairs 1 rest
      | other => (0, [c]) :: shiftPairs 1 other

/-- The token list produced by `item.str.split(/\s+/)` before the per-token
trim filter. -/
def wsTokens (l : List Char) : List (List Char) :=
  (posSplit l).map Prod.snd

/-- Position of the first occurrence of `t` in a list (`String.indexOf` from
position 0); `none` when absent. -/
def firstIdx (t : List Char) : List Char → Option ℕ
  | [] => if t = [] then some 0 else none
  | c :: s => if (c :: s).take t.length = t then some 0 else (firstIdx t s).map (· + 1)

/-- `s.indexOf(t, off)`: the first occurrence at a position `≥ off`; the
JavaScript result `-1` is modelled as `none`. -/
def jsIndexOf (s t : List Char) (off : ℕ) : Option ℕ :=
  (firstIdx t (s.drop off)).map (· + off)

/-- The per-token loop of `extractWordsFromTextContent`: clean each token with
`replace(/[^\w'-]/g, '')`, skip tokens cleaned to nothing (advancing the
cursor by token length + 1), locate the token with `indexOf(word, charOffset)`
(skipping, as the code does, should the lookup fail), and push the word
rectangle with its precomputed center. -/
def processTokens (str : List Char) (cw effH tx yTop : ℚ) :
    List (List Char) → ℕ → List WordRect
  | [], _ => []
  | w :: rest, off =>
    if (w.filter keepChar).length = 0 then
      processTokens str cw effH tx yTop rest (off + w.length + 1)
    else
      match jsIndexOf str w off with
      | none => processTokens str cw effH tx yTop rest (off + w.length + 1)
      | some idx =>
        { word := String.mk (w.filter keepChar)
          x := tx + (idx : ℚ) * cw
          y := yTop
          width := cw * (w.length : ℚ)
          height := effH
          centerX := tx + (idx : ℚ) * cw + cw * (w.length : ℚ) / 2
          centerY := yTop + effH / 2 } ::
          processTokens str cw effH tx yTop rest (idx + w.length + 1)

/-- `charWidth`: `item.str.length > 0 ? item.width / item.str.length : 0`. -/
def charWidthOf (it : TextItem) : ℚ :=
  if 0 < it.str.toList.length then it.width / (it.str.toList.length : ℚ) else 0

/-- The per-run body of `extractWordsFromTextContent`: skip runs empty after
trimming; effective height `max |scaleY| 12`; tokens from the whitespace
split; top-down y as `viewport.height - ty - effectiveHeight`. -/
def extractFromItem (vp : Viewport) (it : TextItem) : List WordRect :=
  if jsTrim it.str.toList = [] then []
  else
    let effH := max |it.scaleY| 12
    let tokens := (wsTokens it.str.toList).filter (fun w => 0 < (jsTrim w).length)
    processTokens it.str.toList (charWidthOf it) effH it.tx
      (vp.height - it.ty - effH) tokens 0

/-- `extractWordsFromTextContent` (src/lib/pdfTextExtractor.ts, lines 5–111):
all runs processed in order, then the final `filter(w => w.word.length > 0)`. -/
def extractWordsFromTextContent (items : List TextItem) (vp : Viewport) : List WordRect :=
  ((items.map (extractFromItem vp)).flatten).filter (fun w => 0 < w.word.length)

/-! ### Concrete instances for the round-trip and counterexample claims -/

/-- A single run `"hello world"` with vertical scale 12, translation
(100, 500), and measured width 110 (so the uniform character width is 10). -/
def demoItem : TextItem :=
  { str := "hello world", scaleX := 12, scaleY := 12, tx := 100, ty := 500, width := 110 }

/-- A 612 × 792 viewport (US-Letter at scale 1). -/
def demoViewport : Viewport :=
  { width := 612, height := 792 }

/-- A run consisting of the single character `_`, which is in `\w` but is
neither letter, digit, apostrophe, nor hyphen. -/
def underscoreItem : TextItem :=
  { str := "_", scaleX := 12, scaleY := 12, tx := 0, ty := 0, width := 10 }

/-- A run that is empty after trimming. -/
def wsItem : TextItem :=
  { str := "  ", scaleX := 12, scaleY := 12, tx := 0, ty := 0, width := 10 }

/-- A rectangle whose threshold-expanded bounds miss the query point
(125, 105) while its center is strictly within `2 * 12` of it. -/
def farRect : WordRect :=
  { word := "far", x := 100, y := 100, width := 10, height := 10,
    centerX := 105, centerY := 105 }

/-! ### Specification-side predicates used in theorem statements -/

/-- `t` occurs in `s` at position `p`. -/
def occursAt (s t : List Char) (p : ℕ) : Prop :=
  (s.drop p).take t.length = t

/-- Every annotated token starts at or after the base position, and each
subsequent token starts at least one separator past the previous token's
end. -/
def wellSpaced : ℕ → List (ℕ × List Char) → Prop
  | _, [] => True
  | b, (p, t) :: rest => b ≤ p ∧ wellSpaced (p + t.length + 1) rest

/-- The character at position `q` exists and is whitespace. -/
def isWsAt (str : List Char) (q : ℕ) : Prop :=
  ∃ c, str.get? q = some c ∧ jsWhitespace c = true

/-- The character at position `q` exists and is whitespace or outside the
kept class `[\w'-]` — the only kinds of character that can precede a token
the cursor has not reached yet. -/
def softAt (str : List Char) (q : ℕ) : Prop :=
  ∃ c, str.get? q = some c ∧ (jsWhitespace c = true ∨ keepChar c = false)

/-- The structural facts about a position-annotated token list that drive the
per-token loop: each token starts at or after the base, is a nonempty
whitespace-free occurrence at its recorded position, is preceded by a
whitespace character (or starts the string), and everything between the base
and the token is whitespace or non-kept characters.  `posSplit` establishes
it from base 0, and the loop maintains it with its cursor as the base. -/
def tokensInv (str : List Char) : ℕ → List (ℕ × List Char) → Prop
  | _, [] => True
  | off, (p, t) :: rest =>
      off ≤ p ∧ t ≠ [] ∧ (∀ c ∈ t, jsWhitespace c = false) ∧ occursAt str t p ∧
      (p = 0 ∨ isWsAt str (p - 1)) ∧
      (∀ q, off ≤ q → q < p → softAt str q) ∧
      tokensInv str (p + t.length) rest

/-- The rectangle the amended claim prescribes for the token `t` starting at
position `p` of a run: word cleaned of non-`[\w'-]` characters, x-origin at
the index found by `indexOf(word, charOffset)` — which for a
whitespace-split token is the token's own start position `p` (the content of
`processTokens_eq`) — times the uniform character width, width proportional
to the raw token length, and center at the rectangle midpoint. -/
def tokenRect (cw effH tx yTop : ℚ) (p : ℕ) (t : List Char) : WordRect :=
  { word := String.mk (t.filter keepChar)
    x := tx + (p : ℚ) * cw
    y := yTop
    width := cw * (t.length : ℚ)
    height := effH
    centerX := tx + (p : ℚ) * cw + cw * (t.length : ℚ) / 2
    centerY := yTop + effH / 2 }

/-- The rectangle list the amended claim prescribes for one run, following
its words: one rectangle per whitespace-split token that still contains a
kept character, none for tokens stripped to nothing, with effective height
`max |vertical scale| 12` and top-down y
`viewport.height - ty - effective height`. -/
def itemRects (vp : Viewport) (it : TextItem) : List WordRect :=
  (posSplit it.str.toList).filterMap (fun pt =>
    if (pt.2.filter keepChar).length = 0 then none
    else some (tokenRect (charWidthOf it) (max |it.scaleY| 12) it.tx
      (vp.height - it.ty - max |it.scaleY| 12) pt.1 pt.2))

/-! ### The render lifecycle controller (the `PdfViewer` component)

The component's shared mutable state (React state plus refs) is one record;
`renderPage` is split at its `await` points into a start segment and three
resume segments; navigation, debounced-resize firing, and the `finally`-queued
rerender are the other events.  Scheduling is an arbitrary interleaving of
these steps. -/

/-- The shared mutable state of the viewer: the `renderTokenRef` generation
counter, the `renderingPage`/`rendered`/`error` view state, current and total
page numbers, the `needsRerender` flag, and the document/page/task refs
(handles modelled by presence and by the owning generation). -/
structure RState where
  renderToken : ℕ
  renderingPage : Bool
  rendered : Bool
  error : Option String
  currentPage : ℕ
  numPages : ℕ
  needsRerender : Bool
  pdfDoc : Bool
  pdfPage : Option ℕ
  renderTask : Option ℕ
  hasTextLayer : Bool
  noTextForPage : Bool
deriving DecidableEq

/-- The suspension point an in-flight `renderPage` is parked at: after
submitting `pdfDoc.getPage`, after submitting the raster `renderTask`, or
inside the text-overlay rendering (`renderTextLayer`). -/
inductive RPhase
  | awaitPage
  | awaitRaster
  | awaitOverlay
deriving DecidableEq

/-- One in-flight execution of `renderPage`: its captured generation token
(`localToken`), its page number, its suspension point, and whether a
`handlePageChange` continuation is waiting on its result. -/
structure InFlight where
  g : ℕ
  n : ℕ
  phase : RPhase
  nav : Bool
deriving DecidableEq

/-- A configuration: the shared state, the in-flight renders, and the pages
whose rerender was queued by the `finally` block (`setTimeout(renderPage, 0)`
modelled as a pending list). -/
structure Config where
  st : RState
  inflight : List InFlight
  scheduled : List ℕ
deriving DecidableEq

/-- The outcome the environment supplies for the awaited operation at a
suspension point: page fetch success or failure, raster success, raster
cancellation (`RenderingCancelledException`), raster failure, or overlay
completion with or without extractable text (overlay errors are caught inside
`renderTextLayer` and collapse to the no-text outcome). -/
inductive Ev
  | pageOk
  | pageFail (msg : String)
  | rasterOk
  | rasterCancelled
  | rasterFail (msg : String)
  | overlay (hasText : Bool)
deriving DecidableEq

/-- `cleanup` (src/unnamed/part_001, lines 34–51): cancel the render task and
release the page handle, swallowing any exception (modelled by totality), and
null both refs. -/
def cleanup (s : RState) : RState :=
  { s with renderTask := none, pdfPage := none }

/-- `cleanupDoc` (src/unnamed/part_001, lines 53–63): `cleanup`, then destroy
and null the document handle, swallowing any exception (modelled by
totality). -/
def cleanupDoc (s : RState) : RState :=
  { cleanup s with pdfDoc := false }

/-- The synchronous prefix of `renderPage(n)`: the guard returns `false`
outright without a document handle (the canvas/context guards behave the
same); otherwise a new generation is allocated and captured, the rendering
flag is set, and `cleanup()` runs, leaving one new in-flight render suspended
at the page fetch.

Modelled from the spec: the generation-allocation statement ("Allocate a new
render generation `g` = increment of the global counter; capture it locally
as `myGen`", §4.1 step 1) is missing from the corrupted `renderPage` text in
src/unnamed/part_001, which uses `localToken` without its declaration; it is
reconstructed here as `renderToken + 1`. -/
def renderStart (n : ℕ) (navFlag : Bool) (c : Config) : Config :=
  if ¬ c.st.pdfDoc then c
  else
    { st := { cleanup c.st with
        renderToken := c.st.renderToken + 1
        renderingPage := true }
      inflight := c.inflight ++ [⟨c.st.renderToken + 1, n, RPhase.awaitPage, navFlag⟩]
      scheduled := c.scheduled }

/-- The `finally` block of `renderPage`: only when the finishing render is
still the current generation, clear the rendering flag and, when a rerender
was requested meanwhile, consume the flag and queue one rerender of this
render's page (`setTimeout(() => renderPage(pageNum), 0)`). -/
def finallyStep (r : InFlight) (s : RState) (sched : List ℕ) : RState × List ℕ :=
  if r.g = s.renderToken then
    if s.needsRerender then
      ({ s with renderingPage := false, needsRerender := false }, sched ++ [r.n])
    else
      ({ s with renderingPage := false }, sched)
  else (s, sched)

/-- Completion of a `renderPage` call with result `result`: the `finally`
block runs, then the `handlePageChange` continuation (when one is waiting)
advances `currentPage` exactly on success. -/
def doneStep (r : InFlight) (result : Bool) (c : Config) : Config :=
  let fs := finallyStep r c.st c.scheduled
  let s2 := if result ∧ r.nav then { fs.1 with currentPage := r.n } else fs.1
  { st := s2, inflight := c.inflight, scheduled := fs.2 }

/-- Resuming the in-flight render `r` (already removed from the inflight list)
at its suspension point with outcome `ev`, following src/unnamed/part_001,
lines 211–305: each resume re-checks `localToken ≠ renderTokenRef.current` and
on staleness returns `false` with no further mutation; the raster resume
nulls `renderTaskRef` before its staleness check, as the code does; failures
set `error` only when still current; cancellation is silent; the overlay
resume applies the text-layer flags (which `renderTextLayer` sets without a
staleness check) and, when still current, marks `rendered` and returns
`true`.  The second component is the promise result when this resume
completes the call. -/
def resumeInFlight (r : InFlight) (ev : Ev) (c : Config) : Config × Option Bool :=
  match r.phase, ev with
  | RPhase.awaitPage, Ev.pageOk =>
    if r.g ≠ c.st.renderToken then (doneStep r false c, some false)
    else
      ({ st := { c.st with pdfPage := some r.n, renderTask := some r.g }
         inflight := c.inflight ++ [{ r with phase := RPhase.awaitRaster }]
         scheduled := c.scheduled }, none)
  | RPhase.awaitPage, Ev.pageFail msg =>
    let s := if r.g = c.st.renderToken then { c.st with error := some msg } else c.st
    (doneStep r false { c with st := s }, some false)
  | RPhase.awaitRaster, Ev.rasterOk =>
    let s := { c.st with renderTask := none }
    if r.g ≠ s.renderToken then (doneStep r false { c with st := s }, some false)
    else
      ({ st := s
         inflight := c.inflight ++ [{ r with phase := RPhase.awaitOverlay }]
         scheduled := c.scheduled }, none)
  | RPhase.awaitRaster, Ev.rasterCancelled =>
    (doneStep r false c, some false)
  | RPhase.awaitRaster, Ev.rasterFail msg =>
    let s := if r.g = c.st.renderToken then { c.st with error := some msg } else c.st
    (doneStep r false { c with st := s }, some false)
  | RPhase.awaitOverlay, Ev.overlay hasText =>
    let s := { c.st with noTextForPage := !hasText, hasTextLayer := hasText }
    if r.g ≠ s.renderToken then (doneStep r false { c with st := s }, some false)
    else (doneStep r true { c with st := { s with rendered := true } }, some true)
  | _, _ => (c, none)

/-- Whether outcome `ev` belongs to suspension point `ph`. -/
def phMatch : RPhase → Ev → Bool
  | RPhase.awaitPage, Ev.pageOk => true
  | RPhase.awaitPage, Ev.pageFail _ => true
  | RPhase.awaitRaster, Ev.rasterOk => true
  | RPhase.awaitRaster, Ev.rasterCancelled => true
  | RPhase.awaitRaster, Ev.rasterFail _ => true
  | RPhase.awaitOverlay, Ev.overlay _ => true
  | _, _ => false

/-- `handlePageChange` (src/unnamed/part_001, lines 308–334): no-op when out
of `[1, numPages]`, equal to the current page, or a render is in flight;
otherwise the popup is closed (an external callback, no modelled state) and
`renderPage(newPage)` starts with a navigation continuation waiting on its
result. -/
def handlePageChange (n : ℕ) (c : Config) : Config :=
  if n < 1 ∨ n > c.st.numPages ∨ n = c.st.currentPage then c
  else if c.st.renderingPage then c
  else renderStart n true c

/-- The body of the debounced resize handler (src/unnamed/part_001, lines
385–396), after the 150 ms quiescence window has elapsed: queue a rerender
when a render is in flight, else render the current page immediately. -/
def handleResize (c : Config) : Config :=
  if c.st.renderingPage then { c with st := { c.st with needsRerender := true } }
  else renderStart c.st.currentPage false c

/-- A queued rerender (the `setTimeout` scheduled by the `finally` block)
fires: `renderPage(pageNum)` starts with no navigation continuation. -/
def fireScheduled (c : Config) : Config :=
  match c.scheduled with
  | [] => c
  | n :: rest => renderStart n false { c with scheduled := rest }

/-- The events the event loop can interleave: a navigation request, a
debounced resize firing, a queued rerender firing, or one in-flight render
resuming at its suspension point with an environment-chosen outcome. -/
inductive Act
  | nav (n : ℕ)
  | resize
  | fire
  | res (r : InFlight) (ev : Ev)

/-- One step of the cooperative event loop.  A resume of a render that is not
in flight, or with an outcome of the wrong shape, is a stutter. -/
def stepc : Act → Config → Config
  | Act.nav n, c => handlePageChange n c
  | Act.resize, c => handleResize c
  | Act.fire, c => fireScheduled c
  | Act.res r ev, c =>
    if r ∈ c.inflight ∧ phMatch r.phase ev then
      (resumeInFlight r ev { c with inflight := c.inflight.erase r }).1
    else c

/-- The promise result delivered by a step, when that step completes a
`renderPage` call. -/
def stepRes : Act → Config → Option Bool
  | Act.res r ev, c =>
    if r ∈ c.inflight ∧ phMatch r.phase ev then
      (resumeInFlight r ev { c with inflight := c.inflight.erase r }).2
    else none
  | _, _ => none

/-- Every in-flight render's captured token is bounded by the current global
generation (each start bumps the counter past all captured tokens). -/
def TokenInv (c : Config) : Prop :=
  ∀ r ∈ c.inflight, r.g ≤ c.st.renderToken

/-- A concrete superseded render: it captured token 1, but the global counter
has moved to 2. -/
def witRender : InFlight :=
  ⟨1, 2, RPhase.awaitPage, true⟩

/-- A concrete lifecycle state with a render in flight. -/
def witState : RState :=
  { renderToken := 2, renderingPage := true, rendered := false, error := none,
    currentPage := 1, numPages := 3, needsRerender := false, pdfDoc := true,
    pdfPage := none, renderTask := none, hasTextLayer := false, noTextForPage := false }

/-- A concrete configuration holding the superseded render. -/
def witConfig : Config :=
  { st := witState, inflight := [witRender], scheduled := [] }

/-! ## Theorems -/

/-! ### Dictionary normalization and cache -/

/-- C3: `normalizeWord` lowercases, trims, strips every character that is not
a lowercase Latin letter, and returns `none` exactly when the stripped result
is shorter than 2 characters or contains a non-letter (the latter is vacuous
after the strip); in particular `normalizeWord "Hello!" = some "hello"`,
`normalizeWord "a" = none`, `normalizeWord "123" = none`, and
`normalizeWord " Don't " = some "dont"` (the apostrophe is dropped). -/
theorem normalizeWord_spec :
    (∀ w : String,
      normalizeWord w = none ↔
        ((jsTrim (w.toList.map jsToLower)).filter isLowerAlpha).length < 2 ∨
        ∃ c ∈ (jsTrim (w.toList.map jsToLower)).filter isLowerAlpha, ¬ isLowerAlpha c)
    ∧ normalizeWord "Hello!" = some "hello"
    ∧ normalizeWord "a" = none
    ∧ normalizeWord "123" = none
    ∧ normalizeWord " Don't " = some "dont" := by
  refine ⟨?_, by decide, by decide, by decide, by decide⟩
  intro w
  set l := (jsTrim (w.toList.map jsToLower)).filter isLowerAlpha with hl
  have hall : l.all isLowerAlpha = true := by
    rw [List.all_eq_true]
    intro c hc
    exact List.of_mem_filter hc
  have hno : ¬ ∃ c ∈ l, ¬ isLowerAlpha c := by
    rintro ⟨c, hc, hnc⟩
    exact hnc (List.of_mem_filter hc)
  rw [normalizeWord]
  by_cases hlen : l.length < 2
  · rw [if_pos (Or.inl hlen)]
    simp [hlen]
  · rw [if_neg]
    · constructor
      · intro h
        exact absurd h (Option.some_ne_none _)
      · rintro (h | h)
        · exact absurd h hlen
        · exact absurd h hno
    · push_neg
      refine ⟨by rw [← hl]; omega, ?_, hall⟩
      intro hnil
      rw [hl, hnil] at hlen
      simp at hlen

/-- A lookup that misses the cache issues exactly one network call, whatever
the response is. -/
theorem fetch_miss_calls (w key : String) (cache : List (String × DefinitionData))
    (r : NetResponse) (hn : normalizeWord w = some key)
    (hm : List.lookup key cache = none) :
    (fetchDefinition w cache r).2.2 = 1 := by
  simp only [fetchDefinition, hn, hm]
  cases r <;> rfl

/-- C2: a cached canonical key is answered from the cache with no network
call; a 404 synthesizes the `not_found` entry and caches it, so two
consecutive lookups of the same canonical word with a first 404 make exactly
one network call; any other non-success response or transport failure
synthesizes an error-marked entry that is not cached, so two consecutive
lookups with a first network error make two network calls. -/
theorem fetchDefinition_cache_spec (w key : String)
    (cache : List (String × DefinitionData)) (hn : normalizeWord w = some key) :
    (∀ resp d, List.lookup key cache = some d →
        fetchDefinition w cache resp = (Except.ok d, cache, 0))
    ∧ (List.lookup key cache = none →
        fetchDefinition w cache NetResponse.notFound =
          (Except.ok (notFoundEntry key), (key, notFoundEntry key) :: cache, 1))
    ∧ (∀ r2, List.lookup key cache = none →
        (fetchTwice w w cache NetResponse.notFound r2).2.2 = 1)
    ∧ (∀ status, List.lookup key cache = none →
        fetchDefinition w cache (NetResponse.badStatus status) =
          (Except.ok (caughtEntry key (some ("HTTP error " ++ toString status))), cache, 1))
    ∧ (∀ msg, List.lookup key cache = none →
        fetchDefinition w cache (NetResponse.netFail msg) =
          (Except.ok (caughtEntry key msg), cache, 1))
    ∧ (∀ msg r2, List.lookup key cache = none →
        (fetchTwice w w cache (NetResponse.netFail msg) r2).2.2 = 2) := by
  refine ⟨?_, ?_, ?_, ?_, ?_, ?_⟩
  · intro resp d hd
    simp only [fetchDefinition, hn, hd]
  · intro hm
    simp only [fetchDefinition, hn, hm]
  · intro r2 hm
    have h1 : fetchDefinition w cache NetResponse.notFound =
        (Except.ok (notFoundEntry key), (key, notFoundEntry key) :: cache, 1) := by
      simp only [fetchDefinition, hn, hm]
    have h2 : fetchDefinition w ((key, notFoundEntry key) :: cache) r2 =
        (Except.ok (notFoundEntry key), (key, notFoundEntry key) :: cache, 0) := by
      simp only [fetchDefinition, hn]
      simp [List.lookup]
    simp [fetchTwice, h1, h2]
  · intro status hm
    simp only [fetchDefinition, hn, hm]
  · intro msg hm
    simp only [fetchDefinition, hn, hm]
  · intro msg r2 hm
    have h1 : fetchDefinition w cache (NetResponse.netFail msg) =
        (Except.ok (caughtEntry key msg), cache, 1) := by
      simp only [fetchDefinition, hn, hm]
    have h2 : (fetchDefinition w cache r2).2.2 = 1 := fetch_miss_calls w key cache r2 hn hm
    simp [fetchTwice, h1, h2]

/-- C2 witness: at the canonical word `"cat"` and an empty cache, a 404
followed by a repeat lookup makes exactly one network call. -/
theorem fetchDefinition_cache_spec_witness :
    (fetchTwice "cat" "cat" [] NetResponse.notFound NetResponse.notFound).2.2 = 1 :=
  (fetchDefinition_cache_spec "cat" "cat" [] (by decide)).2.2.1 NetResponse.notFound rfl

/-- C10: `fetchDefinition` resolves (does not reject) exactly when
normalization succeeds; on a cache miss every resolved value carries the
canonical key as its `word`; and every non-404 HTTP failure and every
transport or parse failure is returned as a value with the canonical key and
a set error field. -/
theorem fetchDefinition_no_reject (w : String) (cache : List (String × DefinitionData))
    (resp : NetResponse) :
    ((∃ d, (fetchDefinition w cache resp).1 = Except.ok d) ↔ (normalizeWord w).isSome = true)
    ∧ (∀ key d, normalizeWord w = some key → List.lookup key cache = none →
        (fetchDefinition w cache resp).1 = Except.ok d → d.word = key)
    ∧ (∀ key status, normalizeWord w = some key → List.lookup key cache = none →
        ∃ d, (fetchDefinition w cache (NetResponse.badStatus status)).1 = Except.ok d ∧
          d.word = key ∧ d.error.isSome = true)
    ∧ (∀ key msg, normalizeWord w = some key → List.lookup key cache = none →
        ∃ d, (fetchDefinition w cache (NetResponse.netFail msg)).1 = Except.ok d ∧
          d.word = key ∧ d.error.isSome = true) := by
  refine ⟨?_, ?_, ?_, ?_⟩
  · constructor
    · rintro ⟨d, hd⟩
      cases hnw : normalizeWord w with
      | none => simp only [fetchDefinition, hnw] at hd; exact absurd hd (by simp)
      | some key => simp [hnw]
    · intro hs
      cases hnw : normalizeWord w with
      | none => rw [hnw] at hs; exact absurd hs (by simp)
      | some key =>
        simp only [fetchDefinition, hnw]
        cases hc : List.lookup key cache with
        | some d => exact ⟨d, rfl⟩
        | none =>
          cases resp with
          | ok entries => exact ⟨parseApi key entries, rfl⟩
          | notFound => exact ⟨notFoundEntry key, rfl⟩
          | badStatus s => exact ⟨caughtEntry key (some ("HTTP error " ++ toString s)), rfl⟩
          | netFail m => exact ⟨caughtEntry key m, rfl⟩
  · intro key d hn hm hd
    simp only [fetchDefinition, hn, hm] at hd
    cases resp with
    | ok entries => cases hd; rfl
    | notFound => cases hd; rfl
    | badStatus s => cases hd; rfl
    | netFail m => cases hd; rfl
  · intro key status hn hm
    simp only [fetchDefinition, hn, hm]
    exact ⟨_, rfl, rfl, rfl⟩
  · intro key msg hn hm
    simp only [fetchDefinition, hn, hm]
    exact ⟨_, rfl, rfl, rfl⟩

/-- C10 witness: a transport failure on the fresh lookup of `"Hello!"`
resolves to an entry for the canonical key `"hello"` with its error field
set. -/
theorem fetchDefinition_no_reject_witness :
    ∃ d, (fetchDefinition "Hello!" [] (NetResponse.netFail none)).1 = Except.ok d ∧
      d.word = "hello" ∧ d.error.isSome = true :=
  (fetchDefinition_no_reject "Hello!" [] (NetResponse.netFail none)).2.2.2
    "hello" none (by decide) rfl

/-! ### Hit testing -/

/-- Characterization of the nearest-center fold: either no candidate beats the
initial bound and the accumulator is unchanged, or the result is a strictly
closest element of the list. -/
theorem nearestAux (x y : ℚ) (l : List WordRect) (a : Option WordRect) (m : ℚ) :
    (l.foldl (nearestStep x y) (a, m) = (a, m) ∧ ∀ w ∈ l, m ≤ distSq w x y)
    ∨ (∃ r, (l.foldl (nearestStep x y) (a, m)).1 = some r ∧ r ∈ l ∧ distSq r x y < m ∧
        (l.foldl (nearestStep x y) (a, m)).2 = distSq r x y ∧
        ∀ w ∈ l, distSq r x y ≤ distSq w x y) := by
  induction l generalizing a m with
  | nil => exact Or.inl ⟨rfl, by simp⟩
  | cons w t ih =>
    by_cases hw : distSq w x y < m
    · have hstep : nearestStep x y (a, m) w = (some w, distSq w x y) := by
        simp [nearestStep, hw]
      rcases ih (some w) (distSq w x y) with ⟨heq, hall⟩ | ⟨r, hr1, hr2, hr3, hr4, hr5⟩
      · refine Or.inr ⟨w, ?_, List.mem_cons_self w t, hw, ?_, ?_⟩
        · simp only [List.foldl_cons, hstep, heq]
        · simp only [List.foldl_cons, hstep, heq]
        · intro v hv
          rcases List.mem_cons.mp hv with rfl | hv
          · exact le_refl _
          · exact hall v hv
      · refine Or.inr ⟨r, ?_, List.mem_cons_of_mem w hr2, lt_trans hr3 hw, ?_, ?_⟩
        · simp only [List.foldl_cons, hstep, hr1]
        · simp only [List.foldl_cons, hstep, hr4]
        · intro v hv
          rcases List.mem_cons.mp hv with rfl | hv
          · exact le_of_lt hr3
          · exact hr5 v hv
    · have hstep : nearestStep x y (a, m) w = (a, m) := by
        simp [nearestStep, hw]
      rcases ih a m with ⟨heq, hall⟩ | ⟨r, hr1, hr2, hr3, hr4, hr5⟩
      · refine Or.inl ⟨?_, ?_⟩
        · simp only [List.foldl_cons, hstep, heq]
        · intro v hv
          rcases List.mem_cons.mp hv with rfl | hv
          · exact le_of_not_lt hw
          · exact hall v hv
      · refine Or.inr ⟨r, ?_, List.mem_cons_of_mem w hr2, hr3, ?_, ?_⟩
        · simp only [List.foldl_cons, hstep, hr1]
        · simp only [List.foldl_cons, hstep, hr4]
        · intro v hv
          rcases List.mem_cons.mp hv with rfl | hv
          · exact le_of_lt (lt_of_lt_of_le hr3 (le_of_not_lt hw))
          · exact hr5 v hv

/-- `find?` returns the head of the first satisfying split. -/
theorem find_first {α : Type} (p : α → Bool) (l1 l2 : List α) (w : α) (hw : p w = true)
    (h1 : ∀ v ∈ l1, p v = false) : (l1 ++ w :: l2).find? p = some w := by
  induction l1 with
  | nil => simp [List.find?, hw]
  | cons v t ih =>
    have hv : p v = false := h1 v (List.mem_cons_self v t)
    simp only [List.cons_append, List.find?, hv]
    exact ih (fun u hu => h1 u (List.mem_cons_of_mem v hu))

/-- C4: `findWordAtPoint` returns the first rectangle in list order whose
threshold-expanded bounds contain the point; with no containment match, when
some center lies strictly within `2 * threshold` it returns a rectangle of
minimal center distance, that distance strictly below `2 * threshold`
(distances compared on squares, which agrees with the source's `Math.sqrt`
comparison for a nonnegative threshold), and it returns `none` when every
center is at least `2 * threshold` away. -/
theorem findWordAtPoint_spec (words : List WordRect) (x y threshold : ℚ)
    (ht : 0 ≤ threshold) :
    (∀ l1 w l2, words = l1 ++ w :: l2 → containsPt w x y threshold = true →
        (∀ v ∈ l1, containsPt v x y threshold = false) →
        findWordAtPoint words x y threshold = some w)
    ∧ ((∀ v ∈ words, containsPt v x y threshold = false) →
        (∀ r, findWordAtPoint words x y threshold = some r →
            r ∈ words ∧ distSq r x y < (threshold * 2) * (threshold * 2) ∧
            ∀ v ∈ words, distSq r x y ≤ distSq v x y)
        ∧ ((∃ v ∈ words, distSq v x y < (threshold * 2) * (threshold * 2)) →
            ∃ r, findWordAtPoint words x y threshold = some r ∧ r ∈ words ∧
              distSq r x y < (threshold * 2) * (threshold * 2) ∧
              ∀ v ∈ words, distSq r x y ≤ distSq v x y)
        ∧ ((∀ v ∈ words, (threshold * 2) * (threshold * 2) ≤ distSq v x y) →
            findWordAtPoint words x y threshold = none)) := by
  constructor
  · intro l1 w l2 hsplit hw h1
    rw [findWordAtPoint, hsplit, find_first _ l1 l2 w hw h1]
  · intro hnone
    have hfind : words.find? (fun w => containsPt w x y threshold) = none := by
      rw [List.find?_eq_none]
      intro v hv
      simp [hnone v hv]
    refine ⟨?_, ?_, ?_⟩
    · intro r hr
      rw [findWordAtPoint, hfind] at hr
      rcases nearestAux x y words none ((threshold * 2) * (threshold * 2)) with
        ⟨heq, _⟩ | ⟨r', hr1, hr2, hr3, _, hr5⟩
      · rw [heq] at hr
        exact absurd hr (by simp)
      · rw [hr1] at hr
        cases hr
        exact ⟨hr2, hr3, hr5⟩
    · rintro ⟨v, hv, hvlt⟩
      rcases nearestAux x y words none ((threshold * 2) * (threshold * 2)) with
        ⟨_, hall⟩ | ⟨r, hr1, hr2, hr3, _, hr5⟩
      · exact absurd hvlt (not_lt.mpr (hall v hv))
      · exact ⟨r, by rw [findWordAtPoint, hfind]; exact hr1, hr2, hr3, hr5⟩
    · intro hfar
      rw [findWordAtPoint, hfind]
      rcases nearestAux x y words none ((threshold * 2) * (threshold * 2)) with
        ⟨heq, _⟩ | ⟨r', _, hr2, hr3, _, _⟩
      · rw [heq]
      · exact absurd hr3 (not_lt.mpr (hfar r' hr2))

/-- C4 witness: a rectangle missed by containment at (125, 105) but whose
center is 20 away — strictly within `2 * 12` — is returned by the fallback. -/
theorem findWordAtPoint_spec_witness :
    ∃ r, findWordAtPoint [farRect] 125 105 12 = some r ∧ r ∈ [farRect] ∧
      distSq r 125 105 < (12 * 2) * (12 * 2) ∧
      ∀ v ∈ [farRect], distSq r 125 105 ≤ distSq v 125 105 :=
  ((findWordAtPoint_spec [farRect] 125 105 12 (by norm_num)).2
      (by
        intro v hv
        rcases List.mem_singleton.mp hv with rfl
        simp only [containsPt, farRect]
        norm_num)).2.1
    ⟨farRect, List.mem_singleton.mpr rfl, by norm_num [distSq, farRect]⟩

/-! ### Word geometry extraction -/

theorem mem_shiftPairs (k : ℕ) (P : List (ℕ × List Char)) (p : ℕ) (t : List Char) :
    (p, t) ∈ shiftPairs k P ↔ ∃ q, (q, t) ∈ P ∧ p = q + k := by
  simp only [shiftPairs, List.mem_map, Prod.ext_iff]
  constructor
  · rintro ⟨⟨q, u⟩, hq, h1, h2⟩
    exact ⟨q, by simpa [← h2] using hq, h1.symm⟩
  · rintro ⟨q, hq, rfl⟩
    exact ⟨(q, t), hq, rfl, rfl⟩

theorem wellSpaced_shift (k : ℕ) (P : List (ℕ × List Char)) :
    ∀ b, wellSpaced b P → wellSpaced (b + k) (shiftPairs k P) := by
  induction P with
  | nil => intro b _; simp [shiftPairs, wellSpaced]
  | cons hd rest ih =>
    rintro b ⟨hb, hrest⟩
    obtain ⟨p, t⟩ := hd
    refine ⟨by omega, ?_⟩
    have := ih (p + t.length + 1) hrest
    have heq : p + t.length + 1 + k = p + k + t.length + 1 := by omega
    rw [heq] at this
    exact this

theorem wellSpaced_weaken (P : List (ℕ × List Char)) (a b : ℕ) (hab : a ≤ b) :
    wellSpaced b P → wellSpaced a P := by
  cases P with
  | nil => intro; trivial
  | cons hd rest =>
    obtain ⟨p, t⟩ := hd
    rintro ⟨hb, hrest⟩
    exact ⟨le_trans hab hb, hrest⟩

theorem posSplit_wellSpaced (s : List Char) : wellSpaced 0 (posSplit s) := by
  induction s with
  | nil => trivial
  | cons c s ih =>
    by_cases hws : jsWhitespace c
    · rw [posSplit, if_pos hws]
      exact wellSpaced_weaken _ 0 1 (by omega) (wellSpaced_shift 1 _ 0 ih)
    · rw [posSplit, if_neg hws]
      rcases hps : posSplit s with _ | ⟨⟨p0, t0⟩, rest⟩
      · exact ⟨le_refl 0, trivial⟩
      · cases p0 with
        | zero =>
          rw [hps] at ih
          refine ⟨le_refl 0, ?_⟩
          have := wellSpaced_shift 1 rest (0 + t0.length + 1) ih.2
          have heq : 0 + t0.length + 1 + 1 = 0 + (c :: t0).length + 1 := by
            simp only [List.length_cons]; omega
          rw [heq] at this
          exact this
        | succ p0 =>
          rw [hps] at ih
          refine ⟨le_refl 0, ?_⟩
          have h1 : wellSpaced 1 ((p0 + 1, t0) :: rest) :=
            wellSpaced_weaken _ 1 (p0 + 1) (by omega) (by exact ⟨le_refl _, ih.2⟩)
          have := wellSpaced_shift 1 _ 1 h1
          have heq : (1 : ℕ) + 1 = 0 + [c].length + 1 := by simp
          rw [heq] at this
          exact this

theorem posSplit_sound (s : List Char) :
    ∀ p t, (p, t) ∈ posSplit s →
      t ≠ [] ∧ (∀ c ∈ t, jsWhitespace c = false) ∧ occursAt s t p := by
  induction s with
  | nil => intro p t h; simp [posSplit] at h
  | cons c s ih =>
    intro p t hmem
    by_cases hws : jsWhitespace c
    · rw [posSplit, if_pos hws] at hmem
      rw [mem_shiftPairs] at hmem
      obtain ⟨q, hq, rfl⟩ := hmem
      obtain ⟨h1, h2, h3⟩ := ih q t hq
      exact ⟨h1, h2, by simpa [occursAt] using h3⟩
    · rw [posSplit, if_neg hws] at hmem
      rcases hps : posSplit s with _ | ⟨⟨p0, t0⟩, rest⟩
      · rw [hps] at hmem
        rcases List.mem_cons.mp hmem with heq | hmem'
        · obtain ⟨rfl, rfl⟩ : p = 0 ∧ t = [c] := Prod.ext_iff.mp heq
          refine ⟨by simp, ?_, ?_⟩
          · intro d hd
            rcases List.mem_singleton.mp hd with rfl
            simpa using hws
          · simp [occursAt]
        · rw [mem_shiftPairs] at hmem'
          obtain ⟨q, hq, rfl⟩ := hmem'
          simp [shiftPairs] at hq
      · rw [hps] at hmem
        cases p0 with
        | zero =>
          rcases List.mem_cons.mp hmem with heq | hmem'
          · obtain ⟨rfl, rfl⟩ : p = 0 ∧ t = c :: t0 := Prod.ext_iff.mp heq
            obtain ⟨h1, h2, h3⟩ := ih 0 t0 (hps ▸ List.mem_cons_self _ _)
            refine ⟨by simp, ?_, ?_⟩
            · intro d hd
              rcases List.mem_cons.mp hd with rfl | hd
              · simpa using hws
              · exact h2 d hd
            · simp only [occursAt, List.drop_zero] at h3 ⊢
              simp [List.length_cons, List.take_cons, h3]
          · rw [mem_shiftPairs] at hmem'
            obtain ⟨q, hq, rfl⟩ := hmem'
            have hq' : (q, t) ∈ posSplit s := hps ▸ List.mem_cons_of_mem _ hq
            obtain ⟨h1, h2, h3⟩ := ih q t hq'
            exact ⟨h1, h2, by simpa [occursAt] using h3⟩
        | succ p0 =>
          rcases List.mem_cons.mp hmem with heq | hmem'
          · obtain ⟨rfl, rfl⟩ : p = 0 ∧ t = [c] := Prod.ext_iff.mp heq
            refine ⟨by simp, ?_, by simp [occursAt]⟩
            intro d hd
            rcases List.mem_singleton.mp hd with rfl
            simpa using hws
          · rw [mem_shiftPairs] at hmem'
            obtain ⟨q, hq, rfl⟩ := hmem'
            obtain ⟨h1, h2, h3⟩ := ih q t (hps ▸ hq)
            exact ⟨h1, h2, by simpa [occursAt] using h3⟩

theorem firstIdx_sound (t : List Char) :
    ∀ s i, firstIdx t s = some i → (s.drop i).take t.length = t := by
  intro s
  induction s with
  | nil =>
    intro i h
    rw [firstIdx] at h
    by_cases ht : t = []
    · rw [if_pos ht] at h
      cases h
      simp [ht]
    · rw [if_neg ht] at h
      exact absurd h (by simp)
  | cons c s ih =>
    intro i h
    rw [firstIdx] at h
    by_cases hm : (c :: s).take t.length = t
    · rw [if_pos hm] at h
      cases h
      simpa using hm
    · rw [if_neg hm] at h
      obtain ⟨j, hj, rfl⟩ := Option.map_eq_some'.mp h
      simpa using ih j hj

theorem firstIdx_complete (t : List Char) :
    ∀ s p, (s.drop p).take t.length = t → ∃ i, firstIdx t s = some i ∧ i ≤ p := by
  intro s
  induction s with
  | nil =>
    intro p h
    simp only [List.drop_nil, List.take_nil] at h
    refine ⟨0, ?_, Nat.zero_le p⟩
    rw [firstIdx, if_pos h.symm]
  | cons c s ih =>
    intro p h
    by_cases hm : (c :: s).take t.length = t
    · exact ⟨0, by rw [firstIdx, if_pos hm], Nat.zero_le p⟩
    · cases p with
      | zero => exact absurd (by simpa using h) hm
      | succ p =>
        obtain ⟨i, hi, hip⟩ := ih p (by simpa using h)
        exact ⟨i + 1, by rw [firstIdx, if_neg hm, hi]; rfl, by omega⟩

theorem jsIndexOf_sound (s t : List Char) (off i : ℕ) (h : jsIndexOf s t off = some i) :
    off ≤ i ∧ occursAt s t i := by
  rw [jsIndexOf] at h
  obtain ⟨j, hj, rfl⟩ := Option.map_eq_some'.mp h
  have := firstIdx_sound t (s.drop off) j hj
  rw [List.drop_drop] at this
  have hco : j + off = off + j := Nat.add_comm j off
  exact ⟨by omega, by rw [occursAt, hco]; simpa using this⟩

theorem jsIndexOf_complete (s t : List Char) (off p : ℕ)
    (hocc : occursAt s t p) (hop : off ≤ p) :
    ∃ i, jsIndexOf s t off = some i ∧ off ≤ i ∧ i ≤ p ∧ occursAt s t i := by
  have hdd : ((s.drop off).drop (p - off)).take t.length = t := by
    rw [List.drop_drop]
    have : off + (p - off) = p := by omega
    rw [this]
    exact hocc
  obtain ⟨j, hj, hjp⟩ := firstIdx_complete t (s.drop off) (p - off) hdd
  refine ⟨j + off, ?_, by omega, by omega, ?_⟩
  · rw [jsIndexOf, hj]; rfl
  · exact (jsIndexOf_sound s t off (j + off) (by rw [jsIndexOf, hj]; rfl)).2

theorem jsTrim_empty_all_ws (l : List Char) (h : jsTrim l = []) :
    ∀ c ∈ l, jsWhitespace c = true := by
  rw [jsTrim] at h
  have h1 : (l.dropWhile jsWhitespace).reverse.dropWhile jsWhitespace = [] := by
    have := congrArg List.reverse h
    simpa using this
  have h2 : ∀ c ∈ (l.dropWhile jsWhitespace).reverse, jsWhitespace c = true :=
    List.dropWhile_eq_nil_iff.mp h1
  have h3 : ∀ c ∈ l.dropWhile jsWhitespace, jsWhitespace c = true := by
    intro c hc
    exact h2 c (List.mem_reverse.mpr hc)
  intro c hc
  rw [← List.takeWhile_append_dropWhile (p := jsWhitespace) (l := l)] at hc
  rcases List.mem_append.mp hc with hc' | hc'
  · exact List.mem_takeWhile_imp hc'
  · exact h3 c hc'

theorem posSplit_of_all_ws (l : List Char) (h : ∀ c ∈ l, jsWhitespace c = true) :
    posSplit l = [] := by
  induction l with
  | nil => rfl
  | cons c s ih =>
    rw [posSplit, if_pos (h c (List.mem_cons_self _ _))]
    rw [ih (fun d hd => h d (List.mem_cons_of_mem _ hd))]
    rfl

theorem jsTrim_eq_self (w : List Char) (h : ∀ c ∈ w, jsWhitespace c = false) :
    jsTrim w = w := by
  have hdw : w.dropWhile jsWhitespace = w := by
    cases w with
    | nil => rfl
    | cons c s => rw [List.dropWhile_cons_of_neg (by simp [h c (List.mem_cons_self _ _)])]
  rw [jsTrim, hdw]
  have hdr : w.reverse.dropWhile jsWhitespace = w.reverse := by
    cases hw : w.reverse with
    | nil => rfl
    | cons c s =>
      have hc : c ∈ w := by
        rw [← List.mem_reverse, hw]
        exact List.mem_cons_self _ _
      rw [List.dropWhile_cons_of_neg (by simp [h c hc])]
  rw [hdr, List.reverse_reverse]

theorem extractFromItem_eq (vp : Viewport) (it : TextItem)
    (h : ¬ jsTrim it.str.toList = []) :
    extractFromItem vp it =
      processTokens it.str.toList (charWidthOf it) (max |it.scaleY| 12) it.tx
        (vp.height - it.ty - max |it.scaleY| 12)
        ((posSplit it.str.toList).map Prod.snd) 0 := by
  rw [extractFromItem, if_neg h]
  simp only []
  congr 1
  rw [wsTokens]
  apply List.filter_eq_self.mpr
  intro w hw
  obtain ⟨⟨p, t⟩, hpt, rfl⟩ := List.mem_map.mp hw
  obtain ⟨hne, hnws, _⟩ := posSplit_sound it.str.toList p t hpt
  have : jsTrim t = t := jsTrim_eq_self t hnws
  simp only [this]
  simpa using List.length_pos.mpr hne

theorem keep_not_ws (c : Char) (h : keepChar c = true) : jsWhitespace c = false := by
  by_contra hws
  have hws' : jsWhitespace c = true := by
    cases hw : jsWhitespace c
    · exact absurd hw hws
    · rfl
  rw [jsWhitespace] at hws'
  have := of_decide_eq_true hws'
  rcases this with rfl | rfl | rfl | rfl | rfl | rfl <;> exact absurd h (by decide)

theorem occursAt_get (str t : List Char) (p : ℕ) (h : occursAt str t p)
    (k : ℕ) (hk : k < t.length) : str.get? (p + k) = t.get? k := by
  rw [occursAt] at h
  have h1 : t.get? k = ((str.drop p).take t.length).get? k := by rw [h]
  rw [List.get?_take hk, List.get?_drop] at h1
  exact h1.symm

theorem wellSpaced_le_of_mem (P : List (ℕ × List Char)) :
    ∀ b, wellSpaced b P → ∀ pt ∈ P, b ≤ pt.1 := by
  induction P with
  | nil => intro b _ pt hpt; simp at hpt
  | cons hd rest ih =>
    obtain ⟨p, t⟩ := hd
    rintro b ⟨hb, hrest⟩ pt hpt
    rcases List.mem_cons.mp hpt with rfl | hpt'
    · exact hb
    · exact le_trans (by omega) (ih (p + t.length + 1) hrest pt hpt')

theorem tokensInv_shift (c : Char) (s : List Char) (P : List (ℕ × List Char)) :
    ∀ b, tokensInv s b P → (∀ pt ∈ P, pt.1 = 0 → jsWhitespace c = true) →
      tokensInv (c :: s) (b + 1) (shiftPairs 1 P) := by
  induction P with
  | nil => intro b _ _; trivial
  | cons hd rest ih =>
    obtain ⟨p, t⟩ := hd
    rintro b ⟨hbp, hne, hwf, hocc, hE, hwin, htail⟩ hE0
    refine ⟨by omega, hne, hwf, ?_, ?_, ?_, ?_⟩
    · rw [occursAt]
      show ((c :: s).drop (p + 1)).take t.length = t
      simpa [occursAt] using hocc
    · cases p with
      | zero =>
        right
        exact ⟨c, rfl, hE0 (0, t) (List.mem_cons_self _ _) rfl⟩
      | succ p =>
        right
        rcases hE with h0 | ⟨d, hd, hdws⟩
        · omega
        · exact ⟨d, by simpa using hd, hdws⟩
    · intro q hq1 hq2
      have hq0 : 1 ≤ q := by omega
      obtain ⟨d, hd, hds⟩ := hwin (q - 1) (by omega) (by omega)
      refine ⟨d, ?_, hds⟩
      have : q = (q - 1) + 1 := by omega
      rw [this]
      simpa using hd
    · have := ih (p + t.length) htail
        (fun pt hpt h0 => hE0 pt (List.mem_cons_of_mem _ hpt) h0)
      have heq : p + t.length + 1 = p + 1 + t.length := by omega
      rw [heq] at this
      exact this

theorem posSplit_tokensInv (s : List Char) : tokensInv s 0 (posSplit s) := by
  induction s with
  | nil => trivial
  | cons c s ih =>
    by_cases hws : jsWhitespace c
    · rw [posSplit, if_pos hws]
      have := tokensInv_shift c s (posSplit s) 0 ih (fun _ _ _ => hws)
      -- extend the head window from base 1 to base 0: position 0 is `c`, whitespace
      rcases hps : shiftPairs 1 (posSplit s) with _ | ⟨⟨p0, t0⟩, rest0⟩
      · trivial
      · rw [hps] at this
        obtain ⟨hbp, hne, hwf, hocc, hE, hwin, htail⟩ := this
        refine ⟨by omega, hne, hwf, hocc, hE, ?_, htail⟩
        intro q hq1 hq2
        cases q with
        | zero => exact ⟨c, rfl, Or.inl hws⟩
        | succ q => exact hwin (q + 1) (by omega) hq2
    · rw [posSplit, if_neg hws]
      rcases hps : posSplit s with _ | ⟨⟨p0, t0⟩, rest⟩
      · exact ⟨le_refl 0, by simp, by
          intro d hd
          rcases List.mem_singleton.mp hd with rfl
          simpa using hws, by simp [occursAt], Or.inl rfl, by omega, trivial⟩
      · cases p0 with
        | zero =>
          rw [hps] at ih
          obtain ⟨_, hne0, hwf0, hocc0, _, _, htail0⟩ := ih
          refine ⟨le_refl 0, by simp, ?_, ?_, Or.inl rfl, by omega, ?_⟩
          · intro d hd
            rcases List.mem_cons.mp hd with rfl | hd'
            · simpa using hws
            · exact hwf0 d hd'
          · rw [occursAt]
            simp only [List.drop_zero, List.length_cons, List.take_cons]
            rw [occursAt, List.drop_zero] at hocc0
            simp [hocc0]
          · have hE0 : ∀ pt ∈ rest, pt.1 = 0 → jsWhitespace c = true := by
              intro pt hpt h0
              have hws0 : wellSpaced 0 ((0, t0) :: rest) := hps ▸ posSplit_wellSpaced s
              have := wellSpaced_le_of_mem rest (0 + t0.length + 1) hws0.2 pt hpt
              omega
            have := tokensInv_shift c s rest (0 + t0.length) htail0 hE0
            have heq : 0 + t0.length + 1 = 0 + (c :: t0).length := by simp
            rw [heq] at this
            exact this
        | succ p0 =>
          rw [hps] at ih
          refine ⟨le_refl 0, by simp, ?_, by simp [occursAt], Or.inl rfl, by omega, ?_⟩
          · intro d hd
            rcases List.mem_singleton.mp hd with rfl
            simpa using hws
          · have hE0 : ∀ pt ∈ (p0 + 1, t0) :: rest, pt.1 = 0 → jsWhitespace c = true := by
              intro pt hpt h0
              rcases List.mem_cons.mp hpt with rfl | hpt'
              · omega
              · have hws0 : wellSpaced 0 ((p0 + 1, t0) :: rest) := hps ▸ posSplit_wellSpaced s
                have := wellSpaced_le_of_mem rest (p0 + 1 + t0.length + 1) hws0.2 pt hpt'
                omega
            have := tokensInv_shift c s ((p0 + 1, t0) :: rest) 0 ih hE0
            have heq : (0 : ℕ) + 1 = 0 + [c].length := by simp
            rw [heq] at this
            exact this

theorem tokensInv_rebase (str : List Char) (P : List (ℕ × List Char)) (b b' : ℕ)
    (h : tokensInv str b P)
    (hwin : ∀ q, b' ≤ q → q < b → softAt str q)
    (hhd : ∀ p t rest, P = (p, t) :: rest → b' ≤ p) :
    tokensInv str b' P := by
  cases P with
  | nil => trivial
  | cons hd rest =>
    obtain ⟨p, t⟩ := hd
    obtain ⟨hbp, hne, hwf, hocc, hE, hwin0, htail⟩ := h
    refine ⟨hhd p t rest rfl, hne, hwf, hocc, hE, ?_, htail⟩
    intro q hq1 hq2
    by_cases hqb : q < b
    · exact hwin q hq1 hqb
    · exact hwin0 q (by omega) hq2

theorem found_eq_pos (str t : List Char) (off p : ℕ)
    (hocc : occursAt str t p) (hop : off ≤ p)
    (hwf : ∀ c ∈ t, jsWhitespace c = false)
    (hkeep : t.filter keepChar ≠ [])
    (hE : p = 0 ∨ isWsAt str (p - 1))
    (hwin : ∀ q, off ≤ q → q < p → softAt str q) :
    jsIndexOf str t off = some p := by
  obtain ⟨i, hfind, hoffi, hip, hocci⟩ := jsIndexOf_complete str t off p hocc hop
  rcases eq_or_lt_of_le hip with rfl | hilt
  · exact hfind
  · exfalso
    -- a keep character of t, with its index
    have hex : ∃ c ∈ t, keepChar c = true := by
      by_contra hall
      push_neg at hall
      apply hkeep
      rw [List.filter_eq_nil]
      intro a ha
      simp [hall a ha]
    obtain ⟨c, hct, hckeep⟩ := hex
    obtain ⟨k, hk⟩ := List.mem_iff_get?.mp hct
    have hklen : k < t.length := by
      by_contra hge
      rw [List.get?_eq_none.mpr (by omega)] at hk
      exact absurd hk (by simp)
    by_cases hik : i + k < p
    · obtain ⟨d, hd, hds⟩ := hwin (i + k) (by omega) hik
      have h2 := occursAt_get str t i hocci k hklen
      rw [hk, hd] at h2
      have hdc : d = c := by simpa using h2
      subst hdc
      rcases hds with hds | hds
      · exact absurd hds (by simp [keep_not_ws d hckeep])
      · exact absurd hckeep (by simp [hds])
    · have hp1 : 1 ≤ p := by omega
      rcases hE with h0 | ⟨d, hd, hdws⟩
      · omega
      · have hkidx : p - 1 - i < t.length := by omega
        have := occursAt_get str t i hocci (p - 1 - i) hkidx
        have heq : i + (p - 1 - i) = p - 1 := by omega
        rw [heq, hd] at this
        have hdmem : d ∈ t := by
          have := List.get?_mem this.symm
          exact this
        rw [hwf d hdmem] at hdws
        exact absurd hdws (by simp)

theorem processTokens_eq (str : List Char) (cw effH tx yTop : ℚ) :
    ∀ (P : List (ℕ × List Char)) (off : ℕ),
      wellSpaced off P → tokensInv str off P →
      processTokens str cw effH tx yTop (P.map Prod.snd) off =
        P.filterMap (fun pt =>
          if (pt.2.filter keepChar).length = 0 then none
          else some (tokenRect cw effH tx yTop pt.1 pt.2)) := by
  intro P
  induction P with
  | nil => intro off _ _; rfl
  | cons hd rest ih =>
    obtain ⟨p, t⟩ := hd
    intro off hws hinv
    obtain ⟨hbp, hws2⟩ := hws
    obtain ⟨_, hne, hwf, hocc, hE, hwin, htail⟩ := hinv
    have hhdBound : ∀ p2 t2 r2, rest = (p2, t2) :: r2 → p + t.length + 1 ≤ p2 := by
      intro p2 t2 r2 hr
      rw [hr] at hws2
      exact hws2.1
    by_cases hclean : (t.filter keepChar).length = 0
    · have hallnk : ∀ c ∈ t, keepChar c = false := by
        intro c hc
        have h0 : t.filter keepChar = [] := List.length_eq_zero.mp hclean
        by_contra hk
        have hk' : keepChar c = true := by
          cases hkc : keepChar c
          · exact absurd hkc hk
          · rfl
        have : c ∈ t.filter keepChar := List.mem_filter.mpr ⟨hc, hk'⟩
        rw [h0] at this
        simp at this
      have hstep : processTokens str cw effH tx yTop (((p, t) :: rest).map Prod.snd) off =
          processTokens str cw effH tx yTop (rest.map Prod.snd) (off + t.length + 1) := by
        show processTokens str cw effH tx yTop (t :: rest.map Prod.snd) off = _
        rw [processTokens, if_pos hclean]
      rw [hstep, List.filterMap_cons]
      simp only [hclean, if_pos rfl]
      apply ih (off + t.length + 1)
      · exact wellSpaced_weaken _ _ _ (by omega) hws2
      · refine tokensInv_rebase str rest (p + t.length) (off + t.length + 1) htail ?_ ?_
        · intro q hq1 hq2
          by_cases hqp : q < p
          · refine hwin q ?_ hqp
            omega
          · have hpq : p ≤ q := le_of_not_lt hqp
            have hqk : q - p < t.length := by omega
            have hget := occursAt_get str t p hocc (q - p) hqk
            have heq : p + (q - p) = q := by omega
            rw [heq] at hget
            cases hval : t.get? (q - p) with
            | none =>
              rw [List.get?_eq_none] at hval
              omega
            | some c =>
              rw [hval] at hget
              exact ⟨c, hget, Or.inr (hallnk c (List.get?_mem hval))⟩
        · intro p2 t2 r2 hr
          have := hhdBound p2 t2 r2 hr
          omega
    · have hkeepne : t.filter keepChar ≠ [] := fun h => hclean (by rw [h]; rfl)
      have hfound := found_eq_pos str t off p hocc hbp hwf hkeepne hE hwin
      have hstep : processTokens str cw effH tx yTop (((p, t) :: rest).map Prod.snd) off =
          tokenRect cw effH tx yTop p t ::
            processTokens str cw effH tx yTop (rest.map Prod.snd) (p + t.length + 1) := by
        show processTokens str cw effH tx yTop (t :: rest.map Prod.snd) off = _
        rw [processTokens, if_neg hclean, hfound]
        rfl
      rw [hstep, List.filterMap_cons]
      simp only [hclean, if_neg]
      rw [ih (p + t.length + 1) hws2
        (tokensInv_rebase str rest (p + t.length) (p + t.length + 1) htail
          (by intro q hq1 hq2; omega)
          (by intro p2 t2 r2 hr; exact hhdBound p2 t2 r2 hr))]
      simp [hclean]

theorem extractFromItem_eq_itemRects (vp : Viewport) (it : TextItem) :
    extractFromItem vp it = itemRects vp it := by
  by_cases htrim : jsTrim it.str.toList = []
  · rw [extractFromItem, if_pos htrim, itemRects,
      posSplit_of_all_ws it.str.toList (jsTrim_empty_all_ws it.str.toList htrim)]
    rfl
  · rw [extractFromItem_eq vp it htrim, itemRects]
    exact processTokens_eq it.str.toList (charWidthOf it) (max |it.scaleY| 12) it.tx
      (vp.height - it.ty - max |it.scaleY| 12) (posSplit it.str.toList) 0
      (posSplit_wellSpaced it.str.toList) (posSplit_tokensInv it.str.toList)

theorem itemRects_word_pos (vp : Viewport) (it : TextItem) :
    ∀ r ∈ itemRects vp it, 0 < r.word.length := by
  intro r hr
  rw [itemRects] at hr
  obtain ⟨pt, _, hpt⟩ := List.mem_filterMap.mp hr
  by_cases hc : (pt.2.filter keepChar).length = 0
  · rw [if_pos hc] at hpt
    exact absurd hpt (by simp)
  · rw [if_neg hc] at hpt
    have hr' : r = tokenRect (charWidthOf it) (max |it.scaleY| 12) it.tx
        (vp.height - it.ty - max |it.scaleY| 12) pt.1 pt.2 := by
      cases hpt
      rfl
    rw [hr', tokenRect]
    show 0 < (String.mk (pt.2.filter keepChar)).length
    have : (String.mk (pt.2.filter keepChar)).length = (pt.2.filter keepChar).length := rfl
    omega

/-- C5 (amended): for every text run, `extractWordsFromTextContent` skips
runs that are empty after trimming, and the rectangles of a run are exactly
one per whitespace-split token still containing a kept character (word
character — letter, digit, or underscore, the amendment: JavaScript `\w`
includes the underscore — apostrophe, or hyphen), none for tokens stripped
to nothing, each with x = x-translation + (index of the token in the run
string found at or after the current cursor, namely the token's own start
position) × per-character width, width = per-character width × token length,
height = max(|vertical scale|, 12), y = viewport height − y-translation −
height, and center at the rectangle midpoint: the output equals the
position-indexed specification list `itemRects`, run by run. -/
theorem extractWords_spec (items : List TextItem) (vp : Viewport) :
    (∀ it, jsTrim it.str.toList = [] → extractFromItem vp it = [])
    ∧ (∀ it, extractFromItem vp it = itemRects vp it)
    ∧ extractWordsFromTextContent items vp = (items.map (itemRects vp)).flatten := by
  refine ⟨?_, fun it => extractFromItem_eq_itemRects vp it, ?_⟩
  · intro it h
    rw [extractFromItem, if_pos h]
  · rw [extractWordsFromTextContent]
    have hmap : items.map (extractFromItem vp) = items.map (itemRects vp) :=
      List.map_congr_left (fun it _ => extractFromItem_eq_itemRects vp it)
    rw [hmap]
    apply List.filter_eq_self.mpr
    intro r hr
    obtain ⟨lst, hlst, hrlst⟩ := List.mem_flatten.mp hr
    obtain ⟨it, _, rfl⟩ := List.mem_map.mp hlst
    have := itemRects_word_pos vp it r hrlst
    simpa using this

/-- C5 counterexample: the run `"_"` consists of one whitespace-split token
that contains no letter, digit, apostrophe, or hyphen, so the claim as stated
predicts no rectangle; the code's `\w` class keeps the underscore and a
rectangle with word `"_"` is emitted. -/
theorem extract_underscore_counterexample :
    (extractWordsFromTextContent [underscoreItem] demoViewport).map WordRect.word = ["_"] := by
  norm_num +decide [extractWordsFromTextContent, extractFromItem, underscoreItem, demoViewport,
    posSplit, wsTokens, shiftPairs, processTokens, jsIndexOf, firstIdx, charWidthOf,
    jsTrim, jsWhitespace, keepChar, jsWordChar, String.toList]

/-- C5 witness: a run that is blank after trimming contributes no
rectangles. -/
theorem extractWords_spec_witness :
    extractFromItem demoViewport wsItem = [] :=
  (extractWords_spec [] demoViewport).1 wsItem (by decide)

/-- C6: for the single run `"hello world"` with transform scale 12,
translation (100, 500), and measured width 110, extraction yields the two
rectangles for `"hello"` and `"world"` with centers (125, 286) and (185, 286);
hit testing at the computed center of the `"world"` rectangle returns exactly
that rectangle, and the far point (500, 600) — outside both
threshold-expanded rectangles and at squared center distance at least
`(2 * 12)^2` from both — returns no match. -/
theorem geometry_roundtrip :
    (extractWordsFromTextContent [demoItem] demoViewport).map
      (fun r => (r.word, r.centerX, r.centerY)) =
      [("hello", 125, 286), ("world", 185, 286)]
    ∧ findWordAtPoint (extractWordsFromTextContent [demoItem] demoViewport) 185 286 12 =
      (extractWordsFromTextContent [demoItem] demoViewport).get? 1
    ∧ ((extractWordsFromTextContent [demoItem] demoViewport).all
        (fun r => !containsPt r 500 600 12 &&
          decide ((24 : ℚ) * 24 ≤ distSq r 500 600))) = true
    ∧ findWordAtPoint (extractWordsFromTextContent [demoItem] demoViewport) 500 600 12 =
      none := by
  refine ⟨?_, ?_, ?_, ?_⟩ <;>
    norm_num +decide [extractWordsFromTextContent, extractFromItem, demoItem, demoViewport,
      posSplit, wsTokens, shiftPairs, processTokens, jsIndexOf, firstIdx, charWidthOf,
      jsTrim, jsWhitespace, keepChar, jsWordChar, String.toList,
      findWordAtPoint, List.find?, containsPt, nearestStep, distSq]

/-! ### Render lifecycle -/

/-- C9: `cleanupDoc` cancels the in-flight render task, cleans up the page
handle, and destroys the document handle (exception swallowing is modelled by
totality, so it never throws); after one call the task, page, and document
references are all null, and a second call from any lifecycle state changes
nothing. -/
theorem cleanupDoc_spec (s : RState) :
    (cleanupDoc s).renderTask = none ∧ (cleanupDoc s).pdfPage = none ∧
    (cleanupDoc s).pdfDoc = false ∧
    cleanupDoc (cleanupDoc s) = cleanupDoc s ∧
    (cleanupDoc s).renderToken = s.renderToken ∧
    (cleanupDoc s).renderingPage = s.renderingPage ∧
    (cleanupDoc s).rendered = s.rendered ∧
    (cleanupDoc s).error = s.error ∧
    (cleanupDoc s).currentPage = s.currentPage ∧
    (cleanupDoc s).numPages = s.numPages ∧
    (cleanupDoc s).needsRerender = s.needsRerender := by
  simp [cleanupDoc, cleanup]

theorem finallyStep_fields (r : InFlight) (s : RState) (sched : List ℕ) :
    (finallyStep r s sched).1.rendered = s.rendered ∧
    (finallyStep r s sched).1.error = s.error ∧
    (finallyStep r s sched).1.pdfPage = s.pdfPage ∧
    (finallyStep r s sched).1.currentPage = s.currentPage ∧
    (finallyStep r s sched).1.renderToken = s.renderToken := by
  rw [finallyStep]
  split_ifs <;> simp

theorem finallyStep_stale (r : InFlight) (s : RState) (sched : List ℕ)
    (h : ¬ r.g = s.renderToken) : finallyStep r s sched = (s, sched) := by
  rw [finallyStep, if_neg h]

theorem doneStep_false (r : InFlight) (c : Config) :
    (doneStep r false c).st.rendered = c.st.rendered ∧
    (doneStep r false c).st.error = c.st.error ∧
    (doneStep r false c).st.pdfPage = c.st.pdfPage ∧
    (doneStep r false c).st.currentPage = c.st.currentPage := by
  rw [doneStep]
  simp only [false_and, if_false]
  exact ⟨(finallyStep_fields r c.st c.scheduled).1, (finallyStep_fields r c.st c.scheduled).2.1,
    (finallyStep_fields r c.st c.scheduled).2.2.1, (finallyStep_fields r c.st c.scheduled).2.2.2.1⟩

theorem renderStart_fields (n : ℕ) (navFlag : Bool) (c : Config) :
    (renderStart n navFlag c).st.rendered = c.st.rendered ∧
    (renderStart n navFlag c).st.error = c.st.error ∧
    (renderStart n navFlag c).st.currentPage = c.st.currentPage ∧
    (renderStart n navFlag c).st.needsRerender = c.st.needsRerender ∧
    (renderStart n navFlag c).scheduled = c.scheduled := by
  rw [renderStart]
  split_ifs <;> simp [cleanup]

theorem renderStart_inv (n : ℕ) (navFlag : Bool) (c : Config) (h : TokenInv c) :
    TokenInv (renderStart n navFlag c) := by
  rw [renderStart]
  split_ifs with hd
  · intro r hr
    simp only [cleanup] at hr ⊢
    rcases List.mem_append.mp hr with hr' | hr'
    · exact le_trans (h r hr') (by simp)
    · rcases List.mem_singleton.mp hr' with rfl
      simp
  · exact h

theorem stepc_res_eq (r : InFlight) (ev : Ev) (c : Config)
    (hr : r ∈ c.inflight) (hm : phMatch r.phase ev = true) :
    stepc (Act.res r ev) c =
      (resumeInFlight r ev { c with inflight := c.inflight.erase r }).1 ∧
    stepRes (Act.res r ev) c =
      (resumeInFlight r ev { c with inflight := c.inflight.erase r }).2 := by
  constructor
  · rw [stepc, if_pos ⟨hr, hm⟩]
  · rw [stepRes, if_pos ⟨hr, hm⟩]

theorem resume_currentPage (r : InFlight) (ev : Ev) (c : Config)
    (hm : phMatch r.phase ev = true) :
    (resumeInFlight r ev c).1.st.currentPage =
      (if (resumeInFlight r ev c).2 = some true ∧ r.nav = true then r.n
       else c.st.currentPage) := by
  obtain ⟨g, n', ph, nv⟩ := r
  cases ph <;> cases ev <;> simp only [phMatch, Bool.false_eq_true] at hm <;>
    simp only [resumeInFlight, doneStep, finallyStep] <;>
    split_ifs <;> simp_all

/-- C7: `handlePageChange(n)` leaves the configuration unchanged whenever `n`
is out of `[1, numPages]`, equals the current page, or a render is in flight;
otherwise it starts `renderPage(n)` (leaving `currentPage` untouched at start,
with a navigation-tagged render in flight when a document is open), and the
waiting continuation sets the recorded current page to `n` exactly when the
render completes with `true`; a render without a navigation continuation
never moves the current page. -/
theorem handlePageChange_spec (c : Config) (n : ℕ) :
    ((n < 1 ∨ n > c.st.numPages ∨ n = c.st.currentPage ∨ c.st.renderingPage = true) →
        stepc (Act.nav n) c = c)
    ∧ (¬(n < 1 ∨ n > c.st.numPages ∨ n = c.st.currentPage) → c.st.renderingPage = false →
        (stepc (Act.nav n) c).st.currentPage = c.st.currentPage ∧
        (c.st.pdfDoc = true →
          (⟨c.st.renderToken + 1, n, RPhase.awaitPage, true⟩ : InFlight) ∈
            (stepc (Act.nav n) c).inflight))
    ∧ (∀ r ev, r ∈ c.inflight → phMatch r.phase ev = true → r.nav = true →
        (stepc (Act.res r ev) c).st.currentPage =
          (if stepRes (Act.res r ev) c = some true then r.n else c.st.currentPage))
    ∧ (∀ r ev, r ∈ c.inflight → phMatch r.phase ev = true → r.nav = false →
        (stepc (Act.res r ev) c).st.currentPage = c.st.currentPage) := by
  refine ⟨?_, ?_, ?_, ?_⟩
  · intro h
    simp only [stepc, handlePageChange]
    by_cases hg : n < 1 ∨ n > c.st.numPages ∨ n = c.st.currentPage
    · rw [if_pos hg]
    · rw [if_neg hg]
      have hrp : c.st.renderingPage = true := by tauto
      rw [hrp]
      simp
  · intro hg hrp
    simp only [stepc, handlePageChange, if_neg hg, hrp]
    simp only [Bool.false_eq_true, if_false]
    constructor
    · exact (renderStart_fields n true c).2.2.1
    · intro hdoc
      rw [renderStart, if_neg (by simp [hdoc])]
      simp
  · intro r ev hr hm hnav
    obtain ⟨h1, h2⟩ := stepc_res_eq r ev c hr hm
    rw [h1, h2]
    have := resume_currentPage r ev { c with inflight := c.inflight.erase r } hm
    simpa [hnav] using this
  · intro r ev hr hm hnav
    obtain ⟨h1, h2⟩ := stepc_res_eq r ev c hr hm
    rw [h1]
    have := resume_currentPage r ev { c with inflight := c.inflight.erase r } hm
    simpa [hnav] using this

theorem resume_flag (r : InFlight) (ev : Ev) (c : Config)
    (hm : phMatch r.phase ev = true) :
    (¬ r.g = c.st.renderToken →
      (resumeInFlight r ev c).1.scheduled = c.scheduled ∧
      (resumeInFlight r ev c).1.st.needsRerender = c.st.needsRerender)
    ∧ (r.g = c.st.renderToken → ∀ b, (resumeInFlight r ev c).2 = some b →
      ((c.st.needsRerender = true →
          (resumeInFlight r ev c).1.scheduled = c.scheduled ++ [r.n] ∧
          (resumeInFlight r ev c).1.st.needsRerender = false)
       ∧ (c.st.needsRerender = false →
          (resumeInFlight r ev c).1.scheduled = c.scheduled ∧
          (resumeInFlight r ev c).1.st.needsRerender = false))) := by
  obtain ⟨g, n', ph, nv⟩ := r
  cases ph <;> cases ev <;> simp only [phMatch, Bool.false_eq_true] at hm <;>
    simp only [resumeInFlight, doneStep, finallyStep] <;>
    split_ifs <;> simp_all

/-- C8: a debounced resize firing while a render is in flight only sets the
rerender-requested flag and starts no render; firing while idle starts a
render of the current page at once, leaving the flag alone; when a render of
the current generation completes, it consumes a set flag exactly once,
queueing exactly one rerender of its page, and queues nothing when the flag
is clear; a superseded render's completion touches neither the flag nor the
queue. -/
theorem resize_spec (c : Config) :
    (c.st.renderingPage = true →
        stepc Act.resize c = { c with st := { c.st with needsRerender := true } } ∧
        (stepc Act.resize c).inflight = c.inflight)
    ∧ (c.st.renderingPage = false → c.st.pdfDoc = true →
        (stepc Act.resize c).st.needsRerender = c.st.needsRerender ∧
        (⟨c.st.renderToken + 1, c.st.currentPage, RPhase.awaitPage, false⟩ : InFlight) ∈
          (stepc Act.resize c).inflight)
    ∧ (∀ r ev b, r ∈ c.inflight → phMatch r.phase ev = true →
        stepRes (Act.res r ev) c = some b → r.g = c.st.renderToken →
        ((c.st.needsRerender = true →
            (stepc (Act.res r ev) c).scheduled = c.scheduled ++ [r.n] ∧
            (stepc (Act.res r ev) c).st.needsRerender = false)
         ∧ (c.st.needsRerender = false →
            (stepc (Act.res r ev) c).scheduled = c.scheduled ∧
            (stepc (Act.res r ev) c).st.needsRerender = false)))
    ∧ (∀ r ev, r ∈ c.inflight → phMatch r.phase ev = true → ¬ r.g = c.st.renderToken →
        (stepc (Act.res r ev) c).scheduled = c.scheduled ∧
        (stepc (Act.res r ev) c).st.needsRerender = c.st.needsRerender) := by
  refine ⟨?_, ?_, ?_, ?_⟩
  · intro h
    constructor
    · simp [stepc, handleResize, h]
    · simp [stepc, handleResize, h]
  · intro hrp hdoc
    simp only [stepc, handleResize, hrp]
    simp only [Bool.false_eq_true, if_false]
    refine ⟨(renderStart_fields c.st.currentPage false c).2.2.2.1, ?_⟩
    rw [renderStart, if_neg (by simp [hdoc])]
    simp
  · intro r ev b hr hm hres hg
    obtain ⟨h1, h2⟩ := stepc_res_eq r ev c hr hm
    rw [h2] at hres
    rw [h1]
    exact ((resume_flag r ev { c with inflight := c.inflight.erase r } hm).2 hg b hres)
  · intro r ev hr hm hg
    obtain ⟨h1, _⟩ := stepc_res_eq r ev c hr hm
    rw [h1]
    exact (resume_flag r ev { c with inflight := c.inflight.erase r } hm).1 hg

theorem resume_token (r : InFlight) (ev : Ev) (c : Config)
    (hm : phMatch r.phase ev = true) :
    (resumeInFlight r ev c).1.st.renderToken = c.st.renderToken := by
  obtain ⟨g, n', ph, nv⟩ := r
  cases ph <;> cases ev <;> simp only [phMatch, Bool.false_eq_true] at hm <;>
    simp only [resumeInFlight, doneStep, finallyStep] <;>
    split_ifs <;> simp_all

theorem resume_inflight (r : InFlight) (ev : Ev) (c : Config)
    (hm : phMatch r.phase ev = true) :
    ∀ q ∈ (resumeInFlight r ev c).1.inflight, q ∈ c.inflight ∨ q.g = r.g := by
  obtain ⟨g, n', ph, nv⟩ := r
  cases ph <;> cases ev <;> simp only [phMatch, Bool.false_eq_true] at hm <;>
    simp only [resumeInFlight, doneStep, finallyStep] <;>
    (try split_ifs) <;> intro q hq <;>
    first
      | exact Or.inl hq
      | (rcases List.mem_append.mp hq with hq' | hq'
         · exact Or.inl hq'
         · rcases List.mem_singleton.mp hq' with rfl
           exact Or.inr rfl)

theorem resume_stale (r : InFlight) (ev : Ev) (c : Config)
    (hm : phMatch r.phase ev = true) (hst : ¬ r.g = c.st.renderToken) :
    (resumeInFlight r ev c).2 = some false ∧
    (resumeInFlight r ev c).1.st.rendered = c.st.rendered ∧
    (resumeInFlight r ev c).1.st.error = c.st.error ∧
    (resumeInFlight r ev c).1.st.pdfPage = c.st.pdfPage ∧
    (resumeInFlight r ev c).1.st.currentPage = c.st.currentPage := by
  obtain ⟨g, n', ph, nv⟩ := r
  cases ph <;> cases ev <;> simp only [phMatch, Bool.false_eq_true] at hm <;>
    simp only [resumeInFlight, doneStep, finallyStep] <;>
    split_ifs <;> simp_all

theorem resume_inv (r : InFlight) (ev : Ev) (c : Config)
    (hm : phMatch r.phase ev = true) (hr : r.g ≤ c.st.renderToken) (hc : TokenInv c) :
    TokenInv (resumeInFlight r ev c).1 := by
  intro q hq
  rw [resume_token r ev c hm]
  rcases resume_inflight r ev c hm q hq with hq' | hq'
  · exact hc q hq'
  · omega

theorem stepc_inv (a : Act) (c : Config) (hInv : TokenInv c) : TokenInv (stepc a c) := by
  cases a with
  | nav n =>
    simp only [stepc, handlePageChange]
    split_ifs <;> first
      | exact hInv
      | exact renderStart_inv _ _ _ hInv
  | resize =>
    simp only [stepc, handleResize]
    split_ifs with h
    · intro q hq
      exact hInv q hq
    · exact renderStart_inv _ _ _ hInv
  | fire =>
    simp only [stepc, fireScheduled]
    rcases hs : c.scheduled with _ | ⟨m, rest⟩
    · exact hInv
    · exact renderStart_inv m false { c with scheduled := rest } (fun q hq => hInv q hq)
  | res r ev =>
    rw [stepc]
    split_ifs with h
    · obtain ⟨hr, hm⟩ := h
      refine resume_inv r ev { c with inflight := c.inflight.erase r } hm (hInv r hr) ?_
      intro q hq
      exact hInv q (List.mem_of_mem_erase hq)
    · exact hInv

theorem stepc_nonres_fields (a : Act) (c : Config)
    (ha : ∀ r ev, a ≠ Act.res r ev) :
    (stepc a c).st.rendered = c.st.rendered ∧
    (stepc a c).st.error = c.st.error ∧
    (stepc a c).st.currentPage = c.st.currentPage := by
  cases a with
  | nav n =>
    simp only [stepc, handlePageChange]
    split_ifs <;>
      first
        | exact ⟨rfl, rfl, rfl⟩
        | exact ⟨(renderStart_fields n true c).1, (renderStart_fields n true c).2.1,
            (renderStart_fields n true c).2.2.1⟩
  | resize =>
    simp only [stepc, handleResize]
    split_ifs with h
    · exact ⟨rfl, rfl, rfl⟩
    · exact ⟨(renderStart_fields _ false c).1, (renderStart_fields _ false c).2.1,
        (renderStart_fields _ false c).2.2.1⟩
  | fire =>
    simp only [stepc, fireScheduled]
    rcases hs : c.scheduled with _ | ⟨m, rest⟩
    · exact ⟨rfl, rfl, rfl⟩
    · exact ⟨(renderStart_fields m false _).1, (renderStart_fields m false _).2.1,
        (renderStart_fields m false _).2.2.1⟩
  | res r ev => exact absurd rfl (ha r ev)

/-- C1: every step preserves the bound that in-flight captured tokens never
exceed the current global generation; a resume of a render whose captured
token no longer equals the current generation returns `false` and performs no
further shared-state mutation of `rendered`, `error`, the page handle, or the
current page; and any step that changes `rendered`, `error`, or the current
page is the resume of a render holding the current — hence highest —
generation token. -/
theorem generation_spec (c : Config) (a : Act) (hInv : TokenInv c) :
    TokenInv (stepc a c)
    ∧ (∀ r ev, a = Act.res r ev → r ∈ c.inflight → phMatch r.phase ev = true →
        ¬ r.g = c.st.renderToken →
        stepRes a c = some false ∧
        (stepc a c).st.rendered = c.st.rendered ∧
        (stepc a c).st.error = c.st.error ∧
        (stepc a c).st.pdfPage = c.st.pdfPage ∧
        (stepc a c).st.currentPage = c.st.currentPage)
    ∧ (¬ ((stepc a c).st.rendered = c.st.rendered ∧ (stepc a c).st.error = c.st.error ∧
          (stepc a c).st.currentPage = c.st.currentPage) →
        ∃ r ev, a = Act.res r ev ∧ r ∈ c.inflight ∧ r.g = c.st.renderToken ∧
          ∀ q ∈ c.inflight, q.g ≤ r.g) := by
  refine ⟨stepc_inv a c hInv, ?_, ?_⟩
  · rintro r ev rfl hr hm hst
    obtain ⟨h1, h2⟩ := stepc_res_eq r ev c hr hm
    rw [h1, h2]
    exact resume_stale r ev { c with inflight := c.inflight.erase r } hm hst
  · intro hch
    cases a with
    | nav n => exact absurd (stepc_nonres_fields (Act.nav n) c (by intro r ev h; cases h)) hch
    | resize => exact absurd (stepc_nonres_fields Act.resize c (by intro r ev h; cases h)) hch
    | fire => exact absurd (stepc_nonres_fields Act.fire c (by intro r ev h; cases h)) hch
    | res r ev =>
      by_cases hguard : r ∈ c.inflight ∧ phMatch r.phase ev = true
      · obtain ⟨hr, hm⟩ := hguard
        by_cases hst : r.g = c.st.renderToken
        · exact ⟨r, ev, rfl, hr, hst, fun q hq => hst ▸ hInv q hq⟩
        · obtain ⟨h1, _⟩ := stepc_res_eq r ev c hr hm
          have hp := resume_stale r ev { c with inflight := c.inflight.erase r } hm hst
          rw [h1] at hch
          exact absurd ⟨hp.2.1, hp.2.2.1, hp.2.2.2.2⟩ hch
      · rw [stepc, if_neg hguard] at hch
        exact absurd ⟨rfl, rfl, rfl⟩ hch


/-- C1 witness: resuming the superseded render (token 1 against current
generation 2) after its page fetch returns `false` and leaves `rendered`,
`error`, the page handle, and the current page untouched. -/
theorem generation_spec_witness :
    stepRes (Act.res witRender Ev.pageOk) witConfig = some false ∧
    (stepc (Act.res witRender Ev.pageOk) witConfig).st.rendered = witConfig.st.rendered ∧
    (stepc (Act.res witRender Ev.pageOk) witConfig).st.error = witConfig.st.error ∧
    (stepc (Act.res witRender Ev.pageOk) witConfig).st.pdfPage = witConfig.st.pdfPage ∧
    (stepc (Act.res witRender Ev.pageOk) witConfig).st.currentPage =
      witConfig.st.currentPage :=
  (generation_spec witConfig (Act.res witRender Ev.pageOk)
      (fun q hq => by
        simp only [witConfig] at hq
        rcases List.mem_singleton.mp hq with rfl
        decide)).2.1
    witRender Ev.pageOk rfl (by decide) (by decide) (by decide)

/-- C7 witness: `handlePageChange(0)` is a no-op on a concrete configuration
with three pages. -/
theorem handlePageChange_spec_witness :
    stepc (Act.nav 0) witConfig = witConfig :=
  (handlePageChange_spec witConfig 0).1 (Or.inl (by decide))

/-- C8 witness: a resize firing on a concrete configuration whose render is in
flight only sets the rerender flag and starts no render. -/
theorem resize_spec_witness :
    stepc Act.resize witConfig =
      { witConfig with st := { witConfig.st with needsRerender := true } } ∧
    (stepc Act.resize witConfig).inflight = witConfig.inflight :=
  (resize_spec witConfig).1 (by decide)
